import Mathlib

/-!
Verification of the rollback core: `snapshot.rs` (`snapshot_prefix`,
`append_dir_recursive`) and `restore.rs` (`restore_prefix`).

Source filesystem model: an inode table mapping inode numbers to nodes.
Directory children are `(name, inode)` pairs; a child inode absent from the
table models a path that vanished between directory enumeration and the
`fs::symlink_metadata` call.  The `readable` flag on a file models
`File::open` succeeding or failing (permission error); on a directory it
models `fs::read_dir` succeeding or failing.
-/

inductive Node where
  | file (perms : Nat) (content : List Nat) (readable : Bool)
  | dir (perms : Nat) (children : List (String × Nat)) (readable : Bool)
  | symlink (target : String)
deriving DecidableEq

abbrev FS := List (Nat × Node)

/-- Looking up an inode in the table; `none` models `fs::symlink_metadata`
failing because the path vanished (or never existed). -/
def findNode : FS → Nat → Option Node
  | [], _ => none
  | (i, n) :: rest, ino => if i = ino then some n else findNode rest ino

/-- Payload of one tar entry, as emitted by `append_dir_recursive`:
`append_dir` copies the directory's permission bits, `append_data` copies the
file's metadata and streams its bytes, and symlink headers carry only the
link-target text. -/
inductive EPayload where
  | dirE (perms : Nat)
  | fileE (perms : Nat) (content : List Nat)
  | symE (target : String)
deriving DecidableEq

/-- One archive entry: its path inside the tar stream plus its payload. -/
structure Entry where
  path : List String
  payload : EPayload
deriving DecidableEq

def isDirE (e : Entry) : Bool :=
  match e.payload with
  | .dirE _ => true
  | _ => false

/-- Errors of the archiving walk.  `statFail` is the `?`-propagated
`fs::symlink_metadata` error; `fuelOut` is the recursion-depth budget of the
embedding running out (shown below never to happen at `snapshotFuel`). -/
inductive SnapErr where
  | statFail
  | fuelOut
deriving DecidableEq

mutual
/-- Shallow embedding of `append_dir_recursive` from `snapshot.rs`.
The walk stats the node (hard error via `?` when that fails), skips
directories whose inode is already in the visited set, records symlinks
as-is, recurses into readable directories after inserting their inode, and
skips files that cannot be opened.  `fuel` bounds the recursion depth of the
embedding. -/
def appendDirRecursive (fs : FS) : Nat → Nat → List String → List Nat →
    Except SnapErr (List Entry × List Nat)
  | 0, _, _, _ => .error .fuelOut
  | fuel + 1, ino, tarPath, visited =>
    match findNode fs ino with
    | none => .error .statFail
    | some (.symlink target) => .ok ([⟨tarPath, .symE target⟩], visited)
    | some (.dir perms children readable) =>
      if visited.contains ino then
        .ok ([], visited)
      else if readable then
        match appendChildren fs fuel children tarPath (ino :: visited) with
        | .error e => .error e
        | .ok (es, v) => .ok (⟨tarPath, .dirE perms⟩ :: es, v)
      else
        .ok ([⟨tarPath, .dirE perms⟩], ino :: visited)
    | some (.file perms content readable) =>
      if readable then .ok ([⟨tarPath, .fileE perms content⟩], visited)
      else .ok ([], visited)
termination_by fuel _ _ _ => (fuel, 0)

/-- The `for entry in entries.flatten()` loop of `append_dir_recursive`:
children are processed left to right, threading the visited set, and any
hard error aborts the whole walk (the recursive call is followed by `?`). -/
def appendChildren (fs : FS) : Nat → List (String × Nat) → List String → List Nat →
    Except SnapErr (List Entry × List Nat)
  | _, [], _, visited => .ok ([], visited)
  | fuel, (name, cino) :: rest, tarPath, visited =>
    match appendDirRecursive fs fuel cino (tarPath ++ [name]) visited with
    | .error e => .error e
    | .ok (es, v) =>
      match appendChildren fs fuel rest tarPath v with
      | .error e => .error e
      | .ok (es2, v2) => .ok (es ++ es2, v2)
termination_by fuel children _ _ => (fuel, children.length + 1)
end

/-- Recursion-depth budget used by the embedding of `snapshot_prefix`: one
more than the number of inode-table entries. -/
def snapshotFuel (fs : FS) : Nat := fs.length + 1

/-- Shallow embedding of `snapshot_prefix`: walk the source root under the
fixed tar path `"prefix"` with an empty visited set, producing the list of
archive entries (the return value stands for the finished archive at the
output path). -/
def snapshotPrefix (fs : FS) (root : Nat) : Except SnapErr (List Entry) :=
  match appendDirRecursive fs (snapshotFuel fs) root ["prefix"] [] with
  | .error e => .error e
  | .ok (es, _) => .ok es

/-- State of the file at `snapshotsDir/<name>.tar.zst` after a call:
`unfinished` is a created/truncated file whose zstd stream was never
finished (an invalid archive), `finished` a completed archive. -/
inductive OutFileState where
  | unfinished
  | finished (entries : List Entry)
deriving DecidableEq

/-- The effect of `snapshot_prefix` on the output path: `File::create`
truncates the file before the walk starts, destroying whatever was stored
under the same name (the third argument), and the encoder is only finished
when the walk returns `Ok`. -/
def snapshotPrefixRun (fs : FS) (root : Nat) (_prev : Option OutFileState) :
    OutFileState × Except SnapErr (List Entry) :=
  match snapshotPrefix fs root with
  | .error e => (.unfinished, .error e)
  | .ok es => (.finished es, .ok es)

mutual
/-- A plain on-disk tree: what restoration materializes (no inode sharing). -/
inductive PTree where
  | file (perms : Nat) (content : List Nat)
  | dir (perms : Nat) (children : Forest)
  | symlink (target : String)

/-- Named children of a directory, in listing order. -/
inductive Forest where
  | nil
  | cons (name : String) (tree : PTree) (rest : Forest)
end

def Forest.lookup : Forest → String → Option PTree
  | .nil, _ => none
  | .cons m t rest, n => if m = n then some t else rest.lookup n

def Forest.updateAt : Forest → String → (Option PTree → PTree) → Forest
  | .nil, n, g => .cons n (g none) .nil
  | .cons m t rest, n, g =>
    if m = n then .cons m (g (some t)) rest else .cons m t (rest.updateAt n g)

def Forest.erase : Forest → String → Forest
  | .nil, _ => .nil
  | .cons m t rest, n => if m = n then rest.erase n else .cons m t (rest.erase n)

def Forest.append : Forest → Forest → Forest
  | .nil, g => g
  | .cons m t rest, g => .cons m t (rest.append g)

def Forest.names : Forest → List String
  | .nil => []
  | .cons m _ rest => m :: rest.names

/-- Mode bits of directories made by `create_dir_all` and of implicit parent
directories materialized by `tar` during unpacking (0o755). -/
def mkdirPerms : Nat := 0o755

/-- Materializing one tar entry at its final path component: a directory
entry over an existing directory just applies its permissions (unpacking
merges into existing directories); files and symlinks replace whatever was
there. -/
def entryLeaf (old : Option PTree) : EPayload → PTree
  | .dirE perms =>
    match old with
    | some (.dir _ ch) => .dir perms ch
    | _ => .dir perms .nil
  | .fileE perms content => .file perms content
  | .symE target => .symlink target

/-- Descending into (or implicitly creating) a directory while materializing
an entry whose path has further components. -/
def intoDir (old : Option PTree) (g : Forest → Forest) : PTree :=
  match old with
  | some (.dir p ch) => .dir p (g ch)
  | _ => .dir mkdirPerms (g .nil)

/-- Materializing one entry at the given path inside a forest, creating
implicit parent directories as `tar` unpacking does. -/
def insertPath (f : Forest) : List String → EPayload → Forest
  | [], _ => f
  | [n], pay => f.updateAt n (fun old => entryLeaf old pay)
  | n :: m :: rest, pay =>
    f.updateAt n (fun old => intoDir old (fun ch => insertPath ch (m :: rest) pay))

/-- Unpacking, as `Archive::unpack` does it: entries are materialized
sequentially in stream order. -/
def unpack (f : Forest) : List Entry → Forest
  | [] => f
  | e :: es => unpack (insertPath f e.path e.payload) es

/-- A `.tar.zst` file as seen by the restorer: the entries its stream yields,
and whether decoding fails (corrupt/truncated data) after yielding them. -/
structure Archive where
  entries : List Entry
  corrupt : Bool

/-- Result of `restore_prefix`: the destination's parent directory afterwards
and whether the call returned `Ok`. -/
structure RestoreResult where
  parent : Forest
  ok : Bool

/-- Shallow embedding of `restore_prefix` from `restore.rs`, acting on the
destination's parent directory (`parent`) with the destination's basename
`destName`: delete the destination if present, recreate it empty, unpack the
stream into the parent, and on success rename the extracted `"prefix"`
directory into place unless it already is the destination. -/
def restorePrefix (arch : Archive) (destName : String) (parent : Forest) :
    RestoreResult :=
  let p1 := (parent.erase destName).append (.cons destName (.dir mkdirPerms .nil) .nil)
  let p2 := unpack p1 arch.entries
  if arch.corrupt then ⟨p2, false⟩
  else
    match p2.lookup "prefix" with
    | some extracted =>
      if destName = "prefix" then ⟨p2, true⟩
      else ⟨((p2.erase destName).erase "prefix").append (.cons destName extracted .nil), true⟩
    | none => ⟨p2, true⟩

mutual
/-- Reading a source subtree rooted at an inode as a plain tree, together
with the list of directory inodes in preorder; `none` when a node is missing
or unreadable or the depth budget runs out.  This formalizes the claims'
quantification over "directory trees T". -/
def readTree (fs : FS) : Nat → Nat → Option (PTree × List Nat)
  | 0, _ => none
  | fuel + 1, ino =>
    match findNode fs ino with
    | none => none
    | some (.symlink target) => some (.symlink target, [])
    | some (.dir perms children readable) =>
      if readable then
        match readChildren fs fuel children with
        | none => none
        | some (f, inos) => some (.dir perms f, ino :: inos)
      else none
    | some (.file perms content readable) =>
      if readable then some (.file perms content, []) else none
termination_by fuel _ => (fuel, 0)

def readChildren (fs : FS) : Nat → List (String × Nat) → Option (Forest × List Nat)
  | _, [] => some (.nil, [])
  | fuel, (name, cino) :: rest =>
    match readTree fs fuel cino with
    | none => none
    | some (t, inos1) =>
      match readChildren fs fuel rest with
      | none => none
      | some (f, inos2) => some (.cons name t f, inos1 ++ inos2)
termination_by fuel children => (fuel, children.length + 1)
end

def nodupB : List String → Bool
  | [] => true
  | n :: rest => (!rest.contains n) && nodupB rest

mutual
/-- Well-formedness of a plain tree as a filesystem tree: every directory's
child names are distinct. -/
def namesOk : PTree → Bool
  | .file _ _ => true
  | .symlink _ => true
  | .dir _ ch => nodupB ch.names && forestNamesOk ch

def forestNamesOk : Forest → Bool
  | .nil => true
  | .cons _ t rest => namesOk t && forestNamesOk rest
end

mutual
/-- The archive entries a plain tree gives rise to, rooted at `path`:
directory entry first, then children depth-first in listing order — the
entry stream `append_dir_recursive` emits on a clean tree. -/
def treeEntries : PTree → List String → List Entry
  | .file perms content, path => [⟨path, .fileE perms content⟩]
  | .symlink target, path => [⟨path, .symE target⟩]
  | .dir perms ch, path => ⟨path, .dirE perms⟩ :: forestEntries ch path

def forestEntries : Forest → List String → List Entry
  | .nil, _ => []
  | .cons n t rest, path => treeEntries t (path ++ [n]) ++ forestEntries rest path
end

def consPath (n : String) (e : Entry) : Entry := ⟨n :: e.path, e.payload⟩

/-- A one-file source: inode 1 is a readable regular file. -/
def fsOneFile : FS := [(1, .file 6 [9] true)]

/-- A cyclic source: directory inode 1 contains itself under the name
"self" (a directory hardlinked to an ancestor). -/
def fsCycle : FS := [(1, .dir 7 [("self", 1), ("a", 2)] true), (2, .file 6 [9] true)]

/-- A source in which child "gone" vanished between enumeration and the
stat call: inode 2 is absent from the table. -/
def fsVanish : FS := [(1, .dir 7 [("gone", 2), ("ok", 3)] true), (3, .file 6 [5] true)]

/-- A source with one permission-denied file ("bad") next to a readable
one ("good"). -/
def fsSoft : FS :=
  [(1, .dir 7 [("bad", 2), ("good", 3)] true), (2, .file 6 [1, 2] false),
   (3, .file 6 [3] true)]

/-- A clean one-file tree used to exercise the round trip. -/
def fsRoundTrip : FS := [(1, .dir 7 [("a", 2)] true), (2, .file 6 [97] true)]

/-- Number of inode-table entries whose inode is not yet in the visited set:
the measure showing `snapshotFuel` is enough depth budget for the walk. -/
def unvisited (fs : FS) (visited : List Nat) : Nat :=
  (fs.filter (fun p => !visited.contains p.1)).length

/-! ### Forest lemmas -/

theorem Forest.lookup_updateAt_self (f : Forest) (n : String) (g : Option PTree → PTree) :
    (f.updateAt n g).lookup n = some (g (f.lookup n)) := by
  match f with
  | .nil => simp [Forest.updateAt, Forest.lookup]
  | .cons m t rest =>
    have ih := Forest.lookup_updateAt_self rest n g
    by_cases h : m = n
    · subst h; simp [Forest.updateAt, Forest.lookup]
    · simp [Forest.updateAt, Forest.lookup, h, ih]

theorem Forest.lookup_updateAt_ne (f : Forest) (n m : String) (g : Option PTree → PTree)
    (h : m ≠ n) : (f.updateAt n g).lookup m = f.lookup m := by
  match f with
  | .nil => simp [Forest.updateAt, Forest.lookup, Ne.symm h]
  | .cons k t rest =>
    have ih := Forest.lookup_updateAt_ne rest n m g h
    by_cases hk : k = n
    · subst hk
      simp [Forest.updateAt, Forest.lookup, Ne.symm h]
    · simp only [Forest.updateAt, if_neg hk]
      by_cases hm : k = m <;> simp [Forest.lookup, hm, ih]

theorem Forest.updateAt_comp (f : Forest) (n : String) (g h : Option PTree → PTree) :
    (f.updateAt n g).updateAt n h = f.updateAt n (fun o => h (some (g o))) := by
  match f with
  | .nil => simp [Forest.updateAt]
  | .cons m t rest =>
    have ih := Forest.updateAt_comp rest n g h
    by_cases hm : m = n
    · subst hm; simp [Forest.updateAt]
    · simp [Forest.updateAt, hm, ih]

theorem Forest.updateAt_eqOn (f : Forest) (n : String) (g h : Option PTree → PTree)
    (hg : g (f.lookup n) = h (f.lookup n)) : f.updateAt n g = f.updateAt n h := by
  match f with
  | .nil => simp only [Forest.lookup] at hg; simp [Forest.updateAt, hg]
  | .cons m t rest =>
    by_cases hm : m = n
    · subst hm
      simp only [Forest.lookup, if_pos] at hg
      simp [Forest.updateAt, hg]
    · simp only [Forest.lookup, if_neg hm] at hg
      have ih := Forest.updateAt_eqOn rest n g h hg
      simp [Forest.updateAt, hm, ih]

theorem Forest.updateAt_absent (f : Forest) (n : String) (g : Option PTree → PTree)
    (h : f.lookup n = none) : f.updateAt n g = f.append (.cons n (g none) .nil) := by
  match f with
  | .nil => simp [Forest.updateAt, Forest.append]
  | .cons m t rest =>
    by_cases hm : m = n
    · subst hm; simp [Forest.lookup] at h
    · simp only [Forest.lookup, if_neg hm] at h
      have ih := Forest.updateAt_absent rest n g h
      simp [Forest.updateAt, Forest.append, hm, ih]

theorem Forest.lookup_append (f g : Forest) (n : String) :
    (f.append g).lookup n =
      (match f.lookup n with
       | some t => some t
       | none => g.lookup n) := by
  match f with
  | .nil => simp [Forest.append, Forest.lookup]
  | .cons m t rest =>
    have ih := Forest.lookup_append rest g n
    by_cases hm : m = n
    · subst hm; simp [Forest.append, Forest.lookup]
    · simp [Forest.append, Forest.lookup, hm, ih]

theorem Forest.lookup_erase_self (f : Forest) (n : String) :
    (f.erase n).lookup n = none := by
  match f with
  | .nil => simp [Forest.erase, Forest.lookup]
  | .cons m t rest =>
    have ih := Forest.lookup_erase_self rest n
    by_cases hm : m = n
    · subst hm; simp [Forest.erase, ih]
    · simp [Forest.erase, Forest.lookup, hm, ih]

theorem Forest.lookup_erase_ne (f : Forest) (n m : String) (h : m ≠ n) :
    (f.erase n).lookup m = f.lookup m := by
  match f with
  | .nil => simp [Forest.erase]
  | .cons k t rest =>
    have ih := Forest.lookup_erase_ne rest n m h
    by_cases hk : k = n
    · subst hk
      simp [Forest.erase, Forest.lookup, Ne.symm h, ih]
    · simp [Forest.erase, Forest.lookup, hk, ih]

theorem Forest.erase_idem (f : Forest) (n : String) :
    (f.erase n).erase n = f.erase n := by
  match f with
  | .nil => simp [Forest.erase]
  | .cons m t rest =>
    have ih := Forest.erase_idem rest n
    by_cases hm : m = n
    · subst hm; simp [Forest.erase, ih]
    · simp [Forest.erase, hm, ih]

theorem Forest.append_assoc (f g h : Forest) :
    (f.append g).append h = f.append (g.append h) := by
  match f with
  | .nil => simp [Forest.append]
  | .cons m t rest =>
    have ih := Forest.append_assoc rest g h
    simp [Forest.append, ih]

/-! ### Unpacking lemmas -/

theorem unpack_append (f : Forest) (es1 es2 : List Entry) :
    unpack f (es1 ++ es2) = unpack (unpack f es1) es2 := by
  induction es1 generalizing f with
  | nil => rfl
  | cons e es ih => simp [unpack, ih]

theorem intoDir_comp (old : Option PTree) (g1 g2 : Forest → Forest) :
    intoDir (some (intoDir old g1)) g2 = intoDir old (fun ch => g2 (g1 ch)) := by
  match old with
  | none => rfl
  | some (.dir p ch) => rfl
  | some (.file p c) => rfl
  | some (.symlink t) => rfl

theorem insertPath_lookup_other (f : Forest) (path : List String) (pay : EPayload)
    (m : String) (h : ∀ nn r, path = nn :: r → nn ≠ m) :
    (insertPath f path pay).lookup m = f.lookup m := by
  match path with
  | [] => rfl
  | [n] =>
    exact Forest.lookup_updateAt_ne _ _ _ _ (Ne.symm (h n [] rfl))
  | n :: n2 :: rest =>
    exact Forest.lookup_updateAt_ne _ _ _ _ (Ne.symm (h n (n2 :: rest) rfl))

theorem unpack_lookup_other (es : List Entry) (f : Forest) (m : String)
    (h : ∀ e ∈ es, ∀ nn r, e.path = nn :: r → nn ≠ m) :
    (unpack f es).lookup m = f.lookup m := by
  induction es generalizing f with
  | nil => rfl
  | cons e es ih =>
    have h1 : ∀ nn r, e.path = nn :: r → nn ≠ m := h e (by simp)
    have h2 : ∀ x ∈ es, ∀ nn r, x.path = nn :: r → nn ≠ m :=
      fun x hx => h x (by simp [hx])
    calc (unpack (insertPath f e.path e.payload) es).lookup m
        = (insertPath f e.path e.payload).lookup m := ih _ h2
      _ = f.lookup m := insertPath_lookup_other _ _ _ _ h1

theorem unpack_consPath (es : List Entry) (e : Entry) (f : Forest) (n : String)
    (hne : ∀ x ∈ e :: es, x.path ≠ []) :
    unpack f ((e :: es).map (consPath n)) =
      f.updateAt n (fun old => intoDir old (fun ch => unpack ch (e :: es))) := by
  induction es generalizing e f with
  | nil =>
    obtain ⟨pa, pay⟩ := e
    match pa, hne ⟨pa, pay⟩ (by simp) with
    | m :: rest, _ =>
      simp only [List.map, consPath, unpack, insertPath]
  | cons e2 es2 ih =>
    obtain ⟨pa, pay⟩ := e
    match pa, hne ⟨pa, pay⟩ (by simp) with
    | m :: rest, _ =>
      have hne2 : ∀ x ∈ e2 :: es2, x.path ≠ [] := fun x hx => hne x (by simp [hx])
      calc unpack f ((⟨m :: rest, pay⟩ :: e2 :: es2).map (consPath n))
          = unpack (insertPath f (n :: m :: rest) pay) ((e2 :: es2).map (consPath n)) := by
            simp [List.map, consPath, unpack]
        _ = (insertPath f (n :: m :: rest) pay).updateAt n
              (fun old => intoDir old (fun ch => unpack ch (e2 :: es2))) := ih e2 _ hne2
        _ = f.updateAt n (fun old =>
              intoDir (some (intoDir old (fun ch => insertPath ch (m :: rest) pay)))
                (fun ch => unpack ch (e2 :: es2))) := by
            rw [insertPath, Forest.updateAt_comp]
        _ = f.updateAt n (fun old =>
              intoDir old (fun ch => unpack ch (⟨m :: rest, pay⟩ :: e2 :: es2))) := by
            apply congrArg
            funext old
            rw [intoDir_comp]
            rfl

/-! ### Entry-stream lemmas -/

theorem Forest.append_nil (f : Forest) : f.append .nil = f := by
  match f with
  | .nil => rfl
  | .cons m t rest => simp [Forest.append, Forest.append_nil rest]

theorem treeEntries_ne_nil (t : PTree) (path : List String) :
    treeEntries t path ≠ [] := by
  match t with
  | .file p c => simp [treeEntries]
  | .symlink s => simp [treeEntries]
  | .dir p ch => simp [treeEntries]

mutual
theorem treeEntries_cons (t : PTree) (n : String) (path : List String) :
    treeEntries t (n :: path) = (treeEntries t path).map (consPath n) := by
  match t with
  | .file p c => simp [treeEntries, consPath]
  | .symlink s => simp [treeEntries, consPath]
  | .dir p ch =>
    simp only [treeEntries, List.map, consPath]
    rw [forestEntries_cons ch n path]

theorem forestEntries_cons (ch : Forest) (n : String) (path : List String) :
    forestEntries ch (n :: path) = (forestEntries ch path).map (consPath n) := by
  match ch with
  | .nil => simp [forestEntries]
  | .cons nm t rest =>
    simp only [forestEntries, List.map_append]
    rw [show (n :: path) ++ [nm] = n :: (path ++ [nm]) from rfl,
      treeEntries_cons t n (path ++ [nm]), forestEntries_cons rest n path]
end

mutual
theorem treeEntries_path (t : PTree) (path : List String) :
    ∀ e ∈ treeEntries t path, ∃ s, e.path = path ++ s := by
  match t with
  | .file p c =>
    intro e he
    simp [treeEntries] at he
    exact ⟨[], by simp [he]⟩
  | .symlink s =>
    intro e he
    simp [treeEntries] at he
    exact ⟨[], by simp [he]⟩
  | .dir p ch =>
    intro e he
    simp only [treeEntries, List.mem_cons] at he
    rcases he with he | he
    · exact ⟨[], by simp [he]⟩
    · obtain ⟨nm, s, hs⟩ := forestEntries_path ch path e he
      exact ⟨nm :: s, hs⟩

theorem forestEntries_path (ch : Forest) (path : List String) :
    ∀ e ∈ forestEntries ch path, ∃ nm s, e.path = path ++ nm :: s := by
  match ch with
  | .nil => intro e he; simp [forestEntries] at he
  | .cons nm t rest =>
    intro e he
    simp only [forestEntries, List.mem_append] at he
    rcases he with he | he
    · obtain ⟨s, hs⟩ := treeEntries_path t (path ++ [nm]) e he
      exact ⟨nm, s, by simp [hs]⟩
    · exact forestEntries_path rest path e he
end

mutual
/-- Round-trip core, tree case: unpacking the entry stream of a well-formed
tree rooted at name `n` into a forest whose slot `n` is empty (absent, or an
empty directory) places exactly that tree at slot `n`. -/
theorem unpack_treeEntries (t : PTree) (f : Forest) (n : String)
    (hslot : f.lookup n = none ∨ ∃ q, f.lookup n = some (.dir q .nil))
    (hok : namesOk t = true) :
    unpack f (treeEntries t [n]) = f.updateAt n (fun _ => t) := by
  match t with
  | .file p c => rfl
  | .symlink s => rfl
  | .dir p ch =>
    have hstep : f.updateAt n (fun old => entryLeaf old (.dirE p)) =
        f.updateAt n (fun _ => PTree.dir p .nil) := by
      apply Forest.updateAt_eqOn
      rcases hslot with h | ⟨q, h⟩ <;> rw [h] <;> rfl
    have hok2 : nodupB ch.names = true ∧ forestNamesOk ch = true := by
      simpa [namesOk, Bool.and_eq_true] using hok
    match ch with
    | .nil =>
      show unpack (insertPath f [n] (.dirE p)) [] = _
      simpa [unpack, insertPath] using hstep
    | .cons nm t0 rest0 =>
      have hne : forestEntries (Forest.cons nm t0 rest0) [] ≠ [] := by
        simp only [forestEntries]
        intro hcon
        exact treeEntries_ne_nil t0 [nm] (List.append_eq_nil.mp hcon).1
      obtain ⟨e, es, hes⟩ := List.exists_cons_of_ne_nil hne
      have hpne : ∀ x ∈ e :: es, x.path ≠ [] := by
        intro x hx
        have hx2 : x ∈ forestEntries (Forest.cons nm t0 rest0) [] := by
          rw [hes]; exact hx
        obtain ⟨nmx, sx, hsx⟩ := forestEntries_path _ [] x hx2
        simp [hsx]
      calc unpack f (treeEntries (.dir p (.cons nm t0 rest0)) [n])
          = unpack (f.updateAt n (fun old => entryLeaf old (.dirE p)))
              ((forestEntries (Forest.cons nm t0 rest0) []).map (consPath n)) := by
            show unpack (insertPath f [n] (.dirE p)) (forestEntries _ [n]) = _
            rw [insertPath, forestEntries_cons]
        _ = unpack (f.updateAt n (fun _ => PTree.dir p .nil))
              ((e :: es).map (consPath n)) := by rw [hstep, hes]
        _ = (f.updateAt n (fun _ => PTree.dir p .nil)).updateAt n
              (fun old => intoDir old (fun c => unpack c (e :: es))) :=
            unpack_consPath es e _ n hpne
        _ = f.updateAt n (fun _ =>
              PTree.dir p (unpack .nil (forestEntries (Forest.cons nm t0 rest0) []))) := by
            rw [Forest.updateAt_comp]
            apply congrArg
            funext o
            rw [hes]
            rfl
        _ = f.updateAt n (fun _ => PTree.dir p (Forest.cons nm t0 rest0)) := by
            rw [unpack_forestEntries (Forest.cons nm t0 rest0) .nil
              (by intro m hm; rfl) hok2.1 hok2.2]
            rfl

/-- Round-trip core, forest case: unpacking the concatenated entry streams
of a list of named well-formed trees (distinct names, all absent from `f`)
appends exactly those trees to `f`. -/
theorem unpack_forestEntries (ch : Forest) (f : Forest)
    (habs : ∀ m ∈ ch.names, f.lookup m = none)
    (hnd : nodupB ch.names = true) (hok : forestNamesOk ch = true) :
    unpack f (forestEntries ch []) = f.append ch := by
  match ch with
  | .nil => rw [Forest.append_nil]; rfl
  | .cons nm t0 rest0 =>
    have hmem : nm ∈ (Forest.cons nm t0 rest0).names := by simp [Forest.names]
    have hnm : f.lookup nm = none := habs nm hmem
    have hnd2 : rest0.names.contains nm = false ∧ nodupB rest0.names = true := by
      simpa [nodupB, Forest.names, Bool.and_eq_true] using hnd
    have hnotmem : nm ∉ rest0.names := by simpa using hnd2.1
    have hok2 : namesOk t0 = true ∧ forestNamesOk rest0 = true := by
      simpa [forestNamesOk, Bool.and_eq_true] using hok
    have habs2 : ∀ m ∈ rest0.names,
        (f.append (.cons nm t0 .nil)).lookup m = none := by
      intro m hm
      rw [Forest.lookup_append]
      rw [habs m (by simp [Forest.names, hm])]
      have : nm ≠ m := fun hc => hnotmem (hc ▸ hm)
      simp [Forest.lookup, this]
    calc unpack f (forestEntries (Forest.cons nm t0 rest0) [])
        = unpack (unpack f (treeEntries t0 [nm])) (forestEntries rest0 []) := by
          rw [show forestEntries (Forest.cons nm t0 rest0) [] =
            treeEntries t0 [nm] ++ forestEntries rest0 [] from rfl, unpack_append]
      _ = unpack (f.append (.cons nm t0 .nil)) (forestEntries rest0 []) := by
          rw [unpack_treeEntries t0 f nm (Or.inl hnm) hok2.1,
            Forest.updateAt_absent f nm _ hnm]
      _ = (f.append (.cons nm t0 .nil)).append rest0 :=
          unpack_forestEntries rest0 _ habs2 hnd2.2 hok2.2
      _ = f.append (.cons nm t0 rest0) := by
          rw [Forest.append_assoc]
          rfl
end

/-! ### Walk lemmas -/

theorem walk_prefix_all (fs : FS) : ∀ fuel : Nat,
    (∀ ino path v es v2, appendDirRecursive fs fuel ino path v = .ok (es, v2) →
      ∀ e ∈ es, ∃ s, e.path = path ++ s) ∧
    (∀ children path v es v2, appendChildren fs fuel children path v = .ok (es, v2) →
      ∀ e ∈ es, ∃ s, e.path = path ++ s) := by
  intro fuel
  induction fuel with
  | zero =>
    constructor
    · intro ino path v es v2 h
      simp [appendDirRecursive] at h
    · intro children path v es v2 h
      match children with
      | [] =>
        simp only [appendChildren, Except.ok.injEq, Prod.mk.injEq] at h
        obtain ⟨rfl, rfl⟩ := h
        intro e hmem
        simp at hmem
      | (name, cino) :: rest =>
        simp [appendChildren, appendDirRecursive] at h
  | succ fuel ih =>
    have hwalk : ∀ ino path v es v2,
        appendDirRecursive fs (fuel + 1) ino path v = .ok (es, v2) →
        ∀ e ∈ es, ∃ s, e.path = path ++ s := by
      intro ino path v es v2 h
      rcases hF : findNode fs ino with _ | nd
      · simp [appendDirRecursive, hF] at h
      · match nd with
        | .symlink target =>
          simp only [appendDirRecursive, hF, Except.ok.injEq, Prod.mk.injEq] at h
          obtain ⟨rfl, rfl⟩ := h
          intro e hmem
          simp at hmem
          exact ⟨[], by simp [hmem]⟩
        | .dir perms children readable =>
          rcases hv : v.contains ino with _ | _
          · have hv2 : ino ∉ v := by simpa using hv
            rcases hr : readable with _ | _
            · simp only [appendDirRecursive, hF, hv, hr, Bool.false_eq_true,
                if_false, if_true, Except.ok.injEq, Prod.mk.injEq] at h
              obtain ⟨rfl, rfl⟩ := h
              intro e hmem
              simp at hmem
              exact ⟨[], by simp [hmem]⟩
            · rcases hc : appendChildren fs fuel children path (ino :: v) with e' | ⟨es', v'⟩
              · simp [appendDirRecursive, hF, hv, hv2, hr, hc] at h
              · have hrec := ih.2 children path (ino :: v) es' v' hc
                simp only [appendDirRecursive, hF, hv, hr, hc, if_true,
                  Bool.false_eq_true, if_false, Except.ok.injEq, Prod.mk.injEq] at h
                obtain ⟨rfl, rfl⟩ := h
                intro e hmem
                simp only [List.mem_cons] at hmem
                rcases hmem with hmem | hmem
                · exact ⟨[], by simp [hmem]⟩
                · exact hrec e hmem
          · simp only [appendDirRecursive, hF, hv, if_true, Except.ok.injEq,
              Prod.mk.injEq] at h
            obtain ⟨rfl, rfl⟩ := h
            intro e hmem
            simp at hmem
        | .file perms content readable =>
          rcases hr : readable with _ | _
          · simp only [appendDirRecursive, hF, hr, Bool.false_eq_true, if_false,
              Except.ok.injEq, Prod.mk.injEq] at h
            obtain ⟨rfl, rfl⟩ := h
            intro e hmem
            simp at hmem
          · simp only [appendDirRecursive, hF, hr, if_true, Except.ok.injEq,
              Prod.mk.injEq] at h
            obtain ⟨rfl, rfl⟩ := h
            intro e hmem
            simp at hmem
            exact ⟨[], by simp [hmem]⟩
    refine ⟨hwalk, ?_⟩
    intro children
    induction children with
    | nil =>
      intro path v es v2 h
      simp only [appendChildren, Except.ok.injEq, Prod.mk.injEq] at h
      obtain ⟨rfl, rfl⟩ := h
      intro e hmem
      simp at hmem
    | cons child rest ihc =>
      obtain ⟨name, cino⟩ := child
      intro path v es v2 h
      rcases hw : appendDirRecursive fs (fuel + 1) cino (path ++ [name]) v with e' | ⟨es1, v1⟩
      · simp [appendChildren, hw] at h
      · rcases hc : appendChildren fs (fuel + 1) rest path v1 with e' | ⟨es2, v2'⟩
        · simp [appendChildren, hw, hc] at h
        · simp only [appendChildren, hw, hc, Except.ok.injEq, Prod.mk.injEq] at h
          obtain ⟨rfl, rfl⟩ := h
          intro e hmem
          simp only [List.mem_append] at hmem
          rcases hmem with hmem | hmem
          · obtain ⟨s, hs⟩ := hwalk cino (path ++ [name]) v es1 v1 hw e hmem
            exact ⟨name :: s, by simp [hs]⟩
          · exact ihc path v1 es2 v2' hc e hmem

theorem filter_length_mono (l : FS) (p q : Nat × Node → Bool)
    (h : ∀ x, p x = true → q x = true) :
    (l.filter p).length ≤ (l.filter q).length := by
  induction l with
  | nil => simp
  | cons x xs ih =>
    rcases hp : p x with _ | _
    · rcases hq : q x with _ | _ <;> simp [List.filter, hp, hq] <;> omega
    · simp [List.filter, hp, h x hp]
      omega

theorem unvisited_cons_le (fs : FS) (ino : Nat) (v : List Nat) :
    unvisited fs (ino :: v) ≤ unvisited fs v := by
  apply filter_length_mono
  intro x hx
  simp only [Bool.not_eq_true', List.contains_cons] at hx ⊢
  simp only [Bool.or_eq_false_iff] at hx
  exact hx.2

theorem unvisited_cons_lt (fs : FS) (ino : Nat) (v : List Nat) (nd : Node)
    (hF : findNode fs ino = some nd) (hv : v.contains ino = false) :
    unvisited fs (ino :: v) < unvisited fs v := by
  induction fs with
  | nil => simp [findNode] at hF
  | cons x xs ih =>
    obtain ⟨i, n⟩ := x
    unfold unvisited
    by_cases hi : i = ino
    · subst hi
      have hvm : i ∉ v := by simpa using hv
      have hOld : (!v.contains i) = true := by simp [hvm]
      have hNew : (!(i :: v).contains i) = false := by simp [List.contains_cons]
      simp only [List.filter_cons, hOld, hNew, Bool.false_eq_true, if_false,
        if_true, List.length_cons]
      have hle := unvisited_cons_le xs i v
      unfold unvisited at hle
      omega
    · have hF2 : findNode xs ino = some nd := by
        simpa [findNode, hi] using hF
      have hlt := ih hF2
      unfold unvisited at hlt
      have hne : (i == ino) = false := by simpa using hi
      have hEq : (!(ino :: v).contains i) = (!v.contains i) := by
        simp only [List.contains_cons, hne, Bool.false_or]
      simp only [List.filter_cons, hEq]
      rcases hc : (!v.contains i) with _ | _ <;>
        simp only [hc, Bool.false_eq_true, if_false, if_true, List.length_cons] <;>
        omega

theorem unvisited_nil (fs : FS) : unvisited fs [] = fs.length := by
  induction fs with
  | nil => rfl
  | cons x xs ih =>
    simp only [unvisited, List.filter_cons, List.contains, List.elem_nil,
      Bool.not_false, if_true, List.length_cons] at ih ⊢
    omega

theorem walk_fuel_ok (fs : FS) : ∀ fuel : Nat,
    (∀ ino path v, unvisited fs v < fuel →
      appendDirRecursive fs fuel ino path v ≠ .error .fuelOut ∧
      ∀ es v2, appendDirRecursive fs fuel ino path v = .ok (es, v2) →
        unvisited fs v2 ≤ unvisited fs v) ∧
    (∀ children path v, unvisited fs v < fuel →
      appendChildren fs fuel children path v ≠ .error .fuelOut ∧
      ∀ es v2, appendChildren fs fuel children path v = .ok (es, v2) →
        unvisited fs v2 ≤ unvisited fs v) := by
  intro fuel
  induction fuel with
  | zero =>
    constructor
    · intro ino path v hb
      exact absurd hb (Nat.not_lt_zero _)
    · intro children path v hb
      exact absurd hb (Nat.not_lt_zero _)
  | succ fuel ih =>
    have hwalk : ∀ ino path v, unvisited fs v < fuel + 1 →
        appendDirRecursive fs (fuel + 1) ino path v ≠ .error .fuelOut ∧
        ∀ es v2, appendDirRecursive fs (fuel + 1) ino path v = .ok (es, v2) →
          unvisited fs v2 ≤ unvisited fs v := by
      intro ino path v hb
      rcases hF : findNode fs ino with _ | nd
      · constructor
        · simp [appendDirRecursive, hF]
        · intro es v2 h
          simp [appendDirRecursive, hF] at h
      · match nd with
        | .symlink target =>
          constructor
          · simp [appendDirRecursive, hF]
          · intro es v2 h
            simp only [appendDirRecursive, hF, Except.ok.injEq, Prod.mk.injEq] at h
            obtain ⟨rfl, rfl⟩ := h
            exact Nat.le_refl _
        | .dir perms children readable =>
          rcases hv : v.contains ino with _ | _
          · have hv2 : ino ∉ v := by simpa using hv
            rcases hr : readable with _ | _
            · constructor
              · simp [appendDirRecursive, hF, hv, hv2, hr]
              · intro es v2 h
                simp only [appendDirRecursive, hF, hv, hr, Bool.false_eq_true,
                  if_false, if_true, Except.ok.injEq, Prod.mk.injEq] at h
                obtain ⟨rfl, rfl⟩ := h
                exact unvisited_cons_le fs ino v
            · have hlt := unvisited_cons_lt fs ino v _ hF hv
              have hbc : unvisited fs (ino :: v) < fuel := by omega
              have hch := ih.2 children path (ino :: v) hbc
              rcases hc : appendChildren fs fuel children path (ino :: v) with e' | ⟨es', v'⟩
              · have hne : e' ≠ .fuelOut := by
                  intro hcon
                  rw [hcon] at hc
                  exact hch.1 hc
                constructor
                · simp only [appendDirRecursive, hF, hv, hr, hc, if_true,
                    Bool.false_eq_true, if_false, ne_eq, Except.error.injEq]
                  exact hne
                · intro es v2 h
                  simp [appendDirRecursive, hF, hv, hv2, hr, hc] at h
              · have hle := hch.2 es' v' hc
                constructor
                · simp [appendDirRecursive, hF, hv, hv2, hr, hc]
                · intro es v2 h
                  simp only [appendDirRecursive, hF, hv, hr, hc, if_true,
                    Bool.false_eq_true, if_false, Except.ok.injEq, Prod.mk.injEq] at h
                  obtain ⟨rfl, rfl⟩ := h
                  omega
          · have hv2 : ino ∈ v := by simpa using hv
            constructor
            · simp [appendDirRecursive, hF, hv, hv2]
            · intro es v2 h
              simp only [appendDirRecursive, hF, hv, if_true, Except.ok.injEq,
                Prod.mk.injEq] at h
              obtain ⟨rfl, rfl⟩ := h
              exact Nat.le_refl _
        | .file perms content readable =>
          rcases hr : readable with _ | _ <;> constructor
          · simp [appendDirRecursive, hF, hr]
          · intro es v2 h
            simp only [appendDirRecursive, hF, hr, Bool.false_eq_true, if_false,
              Except.ok.injEq, Prod.mk.injEq] at h
            obtain ⟨rfl, rfl⟩ := h
            exact Nat.le_refl _
          · simp [appendDirRecursive, hF, hr]
          · intro es v2 h
            simp only [appendDirRecursive, hF, hr, if_true, Except.ok.injEq,
              Prod.mk.injEq] at h
            obtain ⟨rfl, rfl⟩ := h
            exact Nat.le_refl _
    refine ⟨hwalk, ?_⟩
    intro children
    induction children with
    | nil =>
      intro path v hb
      constructor
      · simp [appendChildren]
      · intro es v2 h
        simp only [appendChildren, Except.ok.injEq, Prod.mk.injEq] at h
        obtain ⟨rfl, rfl⟩ := h
        exact Nat.le_refl _
    | cons child rest ihc =>
      obtain ⟨name, cino⟩ := child
      intro path v hb
      have hwp := hwalk cino (path ++ [name]) v hb
      rcases hw : appendDirRecursive fs (fuel + 1) cino (path ++ [name]) v with e' | ⟨es1, v1⟩
      · have hne : e' ≠ .fuelOut := by
          intro hcon
          rw [hcon] at hw
          exact hwp.1 hw
        constructor
        · simp only [appendChildren, hw, ne_eq, Except.error.injEq]
          exact hne
        · intro es v2 h
          simp [appendChildren, hw] at h
      · have hv1 := hwp.2 es1 v1 hw
        have hb1 : unvisited fs v1 < fuel + 1 := by omega
        have hcp := ihc path v1 hb1
        rcases hc : appendChildren fs (fuel + 1) rest path v1 with e2 | ⟨es2, v2'⟩
        · have hne : e2 ≠ .fuelOut := by
            intro hcon
            rw [hcon] at hc
            exact hcp.1 hc
          constructor
          · simp only [appendChildren, hw, hc, ne_eq, Except.error.injEq]
            exact hne
          · intro es v2 h
            simp [appendChildren, hw, hc] at h
        · have hle2 := hcp.2 es2 v2' hc
          constructor
          · simp [appendChildren, hw, hc]
          · intro es v2 h
            simp only [appendChildren, hw, hc, Except.ok.injEq, Prod.mk.injEq] at h
            obtain ⟨rfl, rfl⟩ := h
            omega

theorem walk_count (fs : FS) : ∀ fuel : Nat,
    (∀ ino path v es v2, appendDirRecursive fs fuel ino path v = .ok (es, v2) →
      v.Nodup → es.countP isDirE + v.length = v2.length ∧ v2.Nodup) ∧
    (∀ children path v es v2, appendChildren fs fuel children path v = .ok (es, v2) →
      v.Nodup → es.countP isDirE + v.length = v2.length ∧ v2.Nodup) := by
  intro fuel
  induction fuel with
  | zero =>
    constructor
    · intro ino path v es v2 h
      simp [appendDirRecursive] at h
    · intro children path v es v2 h hnd
      match children with
      | [] =>
        simp only [appendChildren, Except.ok.injEq, Prod.mk.injEq] at h
        obtain ⟨rfl, rfl⟩ := h
        simp [hnd]
      | (name, cino) :: rest =>
        simp [appendChildren, appendDirRecursive] at h
  | succ fuel ih =>
    have hwalk : ∀ ino path v es v2,
        appendDirRecursive fs (fuel + 1) ino path v = .ok (es, v2) →
        v.Nodup → es.countP isDirE + v.length = v2.length ∧ v2.Nodup := by
      intro ino path v es v2 h hnd
      rcases hF : findNode fs ino with _ | nd
      · simp [appendDirRecursive, hF] at h
      · match nd with
        | .symlink target =>
          simp only [appendDirRecursive, hF, Except.ok.injEq, Prod.mk.injEq] at h
          obtain ⟨rfl, rfl⟩ := h
          simp [List.countP_cons, isDirE, hnd]
        | .dir perms children readable =>
          rcases hv : v.contains ino with _ | _
          · have hv2 : ino ∉ v := by simpa using hv
            rcases hr : readable with _ | _
            · simp only [appendDirRecursive, hF, hv, hr, Bool.false_eq_true,
                if_false, if_true, Except.ok.injEq, Prod.mk.injEq] at h
              obtain ⟨rfl, rfl⟩ := h
              have hd : isDirE ⟨path, EPayload.dirE perms⟩ = true := rfl
              refine ⟨?_, List.nodup_cons.mpr ⟨hv2, hnd⟩⟩
              simp only [List.countP_cons, List.countP_nil, hd, if_true,
                List.length_cons]
              omega
            · rcases hc : appendChildren fs fuel children path (ino :: v) with e' | ⟨es', v'⟩
              · simp [appendDirRecursive, hF, hv, hv2, hr, hc] at h
              · have hnd1 : (ino :: v).Nodup := List.nodup_cons.mpr ⟨hv2, hnd⟩
                have hrec := ih.2 children path (ino :: v) es' v' hc hnd1
                simp only [appendDirRecursive, hF, hv, hr, hc, if_true,
                  Bool.false_eq_true, if_false, Except.ok.injEq, Prod.mk.injEq] at h
                obtain ⟨rfl, rfl⟩ := h
                refine ⟨?_, hrec.2⟩
                have hrec1 := hrec.1
                simp only [List.length_cons] at hrec1
                have hd : isDirE ⟨path, EPayload.dirE perms⟩ = true := rfl
                simp only [List.countP_cons, hd, if_true]
                omega
          · simp only [appendDirRecursive, hF, hv, if_true, Except.ok.injEq,
              Prod.mk.injEq] at h
            obtain ⟨rfl, rfl⟩ := h
            simp [hnd]
        | .file perms content readable =>
          rcases hr : readable with _ | _
          · simp only [appendDirRecursive, hF, hr, Bool.false_eq_true, if_false,
              Except.ok.injEq, Prod.mk.injEq] at h
            obtain ⟨rfl, rfl⟩ := h
            simp [hnd]
          · simp only [appendDirRecursive, hF, hr, if_true, Except.ok.injEq,
              Prod.mk.injEq] at h
            obtain ⟨rfl, rfl⟩ := h
            simp [List.countP_cons, isDirE, hnd]
    refine ⟨hwalk, ?_⟩
    intro children
    induction children with
    | nil =>
      intro path v es v2 h hnd
      simp only [appendChildren, Except.ok.injEq, Prod.mk.injEq] at h
      obtain ⟨rfl, rfl⟩ := h
      simp [hnd]
    | cons child rest ihc =>
      obtain ⟨name, cino⟩ := child
      intro path v es v2 h hnd
      rcases hw : appendDirRecursive fs (fuel + 1) cino (path ++ [name]) v with e' | ⟨es1, v1⟩
      · simp [appendChildren, hw] at h
      · rcases hc : appendChildren fs (fuel + 1) rest path v1 with e' | ⟨es2, v2'⟩
        · simp [appendChildren, hw, hc] at h
        · simp only [appendChildren, hw, hc, Except.ok.injEq, Prod.mk.injEq] at h
          obtain ⟨rfl, rfl⟩ := h
          have h1 := hwalk cino (path ++ [name]) v es1 v1 hw hnd
          have h2 := ihc path v1 es2 v2' hc h1.2
          refine ⟨?_, h2.2⟩
          simp only [List.countP_append]
          omega

theorem walk_readTree (fs : FS) : ∀ fuel : Nat,
    (∀ ino t inos path v, readTree fs fuel ino = some (t, inos) →
      inos.Nodup → (∀ i ∈ inos, v.contains i = false) →
      appendDirRecursive fs fuel ino path v = .ok (treeEntries t path, inos.reverse ++ v)) ∧
    (∀ children frs inos path v, readChildren fs fuel children = some (frs, inos) →
      inos.Nodup → (∀ i ∈ inos, v.contains i = false) →
      appendChildren fs fuel children path v =
        .ok (forestEntries frs path, inos.reverse ++ v)) := by
  intro fuel
  induction fuel with
  | zero =>
    constructor
    · intro ino t inos path v hr
      simp [readTree] at hr
    · intro children frs inos path v hr hnd hdis
      match children with
      | [] =>
        simp only [readChildren, Option.some.injEq, Prod.mk.injEq] at hr
        obtain ⟨rfl, rfl⟩ := hr
        simp [appendChildren, forestEntries]
      | (name, cino) :: rest =>
        simp [readChildren, readTree] at hr
  | succ fuel ih =>
    have hwalk : ∀ ino t inos path v, readTree fs (fuel + 1) ino = some (t, inos) →
        inos.Nodup → (∀ i ∈ inos, v.contains i = false) →
        appendDirRecursive fs (fuel + 1) ino path v =
          .ok (treeEntries t path, inos.reverse ++ v) := by
      intro ino t inos path v hr hnd hdis
      rcases hF : findNode fs ino with _ | nd
      · simp [readTree, hF] at hr
      · match nd with
        | .symlink target =>
          simp only [readTree, hF, Option.some.injEq, Prod.mk.injEq] at hr
          obtain ⟨rfl, rfl⟩ := hr
          simp [appendDirRecursive, hF, treeEntries]
        | .dir perms children readable =>
          rcases hrd : readable with _ | _
          · simp [readTree, hF, hrd] at hr
          · rcases hc : readChildren fs fuel children with _ | ⟨frs, inos1⟩
            · simp [readTree, hF, hrd, hc] at hr
            · simp only [readTree, hF, hrd, hc, if_true, Option.some.injEq,
                Prod.mk.injEq] at hr
              obtain ⟨rfl, rfl⟩ := hr
              have hnd2 := List.nodup_cons.mp hnd
              have hvi : v.contains ino = false := hdis ino (by simp)
              have hvi2 : ino ∉ v := by simpa using hvi
              have hdis1 : ∀ i ∈ inos1, (ino :: v).contains i = false := by
                intro i hi
                have hiv : v.contains i = false := hdis i (by simp [hi])
                have hne : i ≠ ino := fun hcon => hnd2.1 (hcon ▸ hi)
                have hiv2 : i ∉ v := by simpa using hiv
                simpa [List.contains_cons] using ⟨hne, hiv2⟩
              have hch := ih.2 children frs inos1 path (ino :: v) hc hnd2.2 hdis1
              simp only [appendDirRecursive, hF, hvi, hrd, hch, if_true,
                Bool.false_eq_true, if_false]
              simp [treeEntries, List.reverse_cons, List.append_assoc]
        | .file perms content readable =>
          rcases hrd : readable with _ | _
          · simp [readTree, hF, hrd] at hr
          · simp only [readTree, hF, hrd, if_true, Option.some.injEq,
              Prod.mk.injEq] at hr
            obtain ⟨rfl, rfl⟩ := hr
            simp [appendDirRecursive, hF, hrd, treeEntries]
    refine ⟨hwalk, ?_⟩
    intro children
    induction children with
    | nil =>
      intro frs inos path v hr hnd hdis
      simp only [readChildren, Option.some.injEq, Prod.mk.injEq] at hr
      obtain ⟨rfl, rfl⟩ := hr
      simp [appendChildren, forestEntries]
    | cons child rest ihc =>
      obtain ⟨name, cino⟩ := child
      intro frs inos path v hr hnd hdis
      rcases hrt : readTree fs (fuel + 1) cino with _ | ⟨t1, inos1⟩
      · simp [readChildren, hrt] at hr
      · rcases hrc : readChildren fs (fuel + 1) rest with _ | ⟨frs2, inos2⟩
        · simp [readChildren, hrt, hrc] at hr
        · simp only [readChildren, hrt, hrc, Option.some.injEq, Prod.mk.injEq] at hr
          obtain ⟨rfl, rfl⟩ := hr
          rw [List.nodup_append] at hnd
          have hdis1 : ∀ i ∈ inos1, v.contains i = false := by
            intro i hi
            exact hdis i (by simp [hi])
          have hw := hwalk cino t1 inos1 (path ++ [name]) v hrt hnd.1 hdis1
          have hdis2 : ∀ i ∈ inos2, (inos1.reverse ++ v).contains i = false := by
            intro i hi
            have h1 : i ∉ inos1 := fun hcon => hnd.2.2 hcon hi
            have h2 : i ∉ v := by simpa using hdis i (by simp [hi])
            have : i ∉ inos1.reverse ++ v := by
              simp only [List.mem_append, List.mem_reverse]
              exact fun hc => hc.elim h1 h2
            simpa using this
          have hcc := ihc frs2 inos2 path (inos1.reverse ++ v) hrc hnd.2.1 hdis2
          simp only [appendChildren, hw, hcc]
          simp [forestEntries, List.reverse_append, List.append_assoc]

theorem unpack_creates_root (es : List Entry) (f : Forest)
    (hroot : ∀ e ∈ es, ∃ r, e.path = "prefix" :: r) (hne : es ≠ []) :
    ((unpack f es).lookup "prefix").isSome = true := by
  induction es generalizing f with
  | nil => exact absurd rfl hne
  | cons e rest ih =>
    match rest with
    | [] =>
      obtain ⟨r, hr⟩ := hroot e (by simp)
      show ((insertPath f e.path e.payload).lookup "prefix").isSome = true
      rw [hr]
      match r with
      | [] =>
        rw [insertPath, Forest.lookup_updateAt_self]
        rfl
      | m :: r2 =>
        rw [insertPath, Forest.lookup_updateAt_self]
        rfl
    | e2 :: rest2 =>
      exact ih (fun x hx => hroot x (by simp [hx])) (by simp)
        (f := insertPath f e.path e.payload)

/-! ### Claim theorems -/

/-- C4: Cycle safety.  For every source filesystem (including ones where the
same directory inode is reachable twice), the walk of `snapshot_prefix` never
exhausts its depth budget (it terminates rather than looping), and whenever
it succeeds the archive contains exactly one directory entry per distinct
directory inode inserted into the (duplicate-free) visited set — first
occurrence in traversal order wins, later occurrences are skipped. -/
theorem c4_cycle_safety (fs : FS) (root : Nat) :
    snapshotPrefix fs root ≠ .error .fuelOut ∧
    appendDirRecursive fs (snapshotFuel fs) root ["prefix"] [] ≠ .error .fuelOut ∧
    ∀ es v, appendDirRecursive fs (snapshotFuel fs) root ["prefix"] [] = .ok (es, v) →
      es.countP isDirE = v.length ∧ v.Nodup := by
  have hb : unvisited fs [] < snapshotFuel fs := by
    rw [unvisited_nil]
    exact Nat.lt_succ_self _
  have hnf := (walk_fuel_ok fs (snapshotFuel fs)).1 root ["prefix"] [] hb
  refine ⟨?_, hnf.1, ?_⟩
  · unfold snapshotPrefix
    rcases hw : appendDirRecursive fs (snapshotFuel fs) root ["prefix"] [] with e' | ⟨es, v⟩
    · have : e' ≠ .fuelOut := by
        intro hcon
        rw [hcon] at hw
        exact hnf.1 hw
      simpa using this
    · simp
  · intro es v h
    have := (walk_count fs (snapshotFuel fs)).1 root ["prefix"] [] es v h List.nodup_nil
    simpa using this

/-- Witness for C4 on the cyclic filesystem `fsCycle` (a directory that
contains itself): the walk succeeds with exactly one directory entry and one
visited inode. -/
theorem c4_witness :
    List.countP isDirE
        [⟨["prefix"], .dirE 7⟩, ⟨["prefix", "a"], .fileE 6 [9]⟩] = [1].length ∧
      List.Nodup [1] :=
  (c4_cycle_safety fsCycle 1).2.2
    [⟨["prefix"], .dirE 7⟩, ⟨["prefix", "a"], .fileE 6 [9]⟩] [1]
    (by simp [appendDirRecursive, appendChildren, findNode, fsCycle, snapshotFuel])

/-- C5: Root-name invariant.  Every entry emitted by `snapshot_prefix` has a
path that starts with the fixed root component `"prefix"`, regardless of the
source directory. -/
theorem c5_root_name (fs : FS) (root : Nat) (es : List Entry)
    (h : snapshotPrefix fs root = .ok es) :
    ∀ e ∈ es, ∃ r, e.path = "prefix" :: r := by
  unfold snapshotPrefix at h
  rcases hw : appendDirRecursive fs (snapshotFuel fs) root ["prefix"] [] with e' | ⟨es1, v1⟩
  · rw [hw] at h
    simp at h
  · rw [hw] at h
    simp only [Except.ok.injEq] at h
    subst h
    intro e he
    obtain ⟨s, hs⟩ :=
      (walk_prefix_all fs (snapshotFuel fs)).1 root ["prefix"] [] es1 v1 hw e he
    exact ⟨s, by simpa using hs⟩

/-- Witness for C5: the single entry of a one-file snapshot is rooted at
`"prefix"`. -/
theorem c5_witness :
    ∃ r, (Entry.mk ["prefix"] (EPayload.fileE 6 [9])).path = "prefix" :: r :=
  c5_root_name fsOneFile 1 [⟨["prefix"], .fileE 6 [9]⟩]
    (by simp [snapshotPrefix, snapshotFuel, appendDirRecursive, findNode, fsOneFile])
    ⟨["prefix"], .fileE 6 [9]⟩ (by simp)

/-- C6: Destructive replace.  `restore_prefix` deletes the pre-existing
destination before restoring: the outcome is identical to restoring into a
parent directory from which the destination entry has been erased, so
nothing of the old destination's content survives into the result. -/
theorem c6_destructive_replace (arch : Archive) (destName : String) (parent : Forest) :
    restorePrefix arch destName parent =
      restorePrefix arch destName (parent.erase destName) := by
  simp only [restorePrefix, Forest.erase_idem]

/-- C7: Symlink fidelity.  The archiver records a symlink node as a single
symlink entry carrying its link-target text verbatim — it emits no entries
for anything behind the target and recurses into nothing — and the restorer
materializes a symlink entry as a symlink node with exactly the recorded
target text. -/
theorem c7_symlink_fidelity :
    (∀ (fs : FS) (fuel ino : Nat) (path : List String) (v : List Nat) (target : String),
      findNode fs ino = some (.symlink target) →
      appendDirRecursive fs (fuel + 1) ino path v = .ok ([⟨path, .symE target⟩], v)) ∧
    (∀ (f : Forest) (n target : String),
      (insertPath f [n] (.symE target)).lookup n = some (.symlink target)) := by
  constructor
  · intro fs fuel ino path v target hF
    simp [appendDirRecursive, hF]
  · intro f n target
    rw [insertPath, Forest.lookup_updateAt_self]
    rfl

/-- Witness for C7: archiving a symlink node yields exactly its symlink
entry, and restoring that entry yields a symlink with the same target. -/
theorem c7_witness :
    appendDirRecursive [(5, .symlink "a/b")] 1 5 ["prefix"] [] =
        .ok ([⟨["prefix"], .symE "a/b"⟩], []) ∧
      (insertPath .nil ["l"] (.symE "a/b")).lookup "l" = some (.symlink "a/b") :=
  ⟨c7_symlink_fidelity.1 [(5, .symlink "a/b")] 0 5 ["prefix"] [] "a/b"
      (by simp [findNode]),
    c7_symlink_fidelity.2 .nil "l" "a/b"⟩

/-- C9: A snapshot of a missing source still truncates the output file
first: when the root cannot be stat'ed, `snapshot_prefix` returns an error,
and the file at the output path is left as an unfinished (invalid) archive
regardless of what was stored there before — the previous archive under the
same name is destroyed. -/
theorem c9_failed_snapshot_truncates (fs : FS) (root : Nat) (prev : Option OutFileState)
    (h : findNode fs root = none) :
    snapshotPrefixRun fs root prev = (.unfinished, .error .statFail) := by
  have hw : appendDirRecursive fs (snapshotFuel fs) root ["prefix"] [] =
      .error .statFail := by
    show appendDirRecursive fs (fs.length + 1) root ["prefix"] [] = .error .statFail
    simp [appendDirRecursive, h]
  simp [snapshotPrefixRun, snapshotPrefix, hw]

/-- Witness for C9: snapshotting from an empty inode table over a previously
finished archive leaves an unfinished file and reports the stat error. -/
theorem c9_witness :
    snapshotPrefixRun [] 0 (some (.finished [⟨["prefix"], .dirE 7⟩])) =
      (.unfinished, .error .statFail) :=
  c9_failed_snapshot_truncates [] 0 (some (.finished [⟨["prefix"], .dirE 7⟩])) rfl

/-- C10: The visited-inode guard applies only to directories.  A regular
file node is archived as a full copy no matter what the visited set holds,
so two names hardlinked to the same file inode each produce an independent
full copy in the archive, and the restored tree holds two separate files
(the hardlink relationship is not preserved). -/
theorem c10_hardlinks_copied (q p : Nat) (c : List Nat) :
    (∀ (fs : FS) (fuel ino : Nat) (path : List String) (v : List Nat)
        (perms : Nat) (content : List Nat),
      findNode fs ino = some (.file perms content true) →
      appendDirRecursive fs (fuel + 1) ino path v = .ok ([⟨path, .fileE perms content⟩], v)) ∧
    snapshotPrefix [(1, .dir q [("a", 2), ("b", 2)] true), (2, .file p c true)] 1 =
      .ok [⟨["prefix"], .dirE q⟩, ⟨["prefix", "a"], .fileE p c⟩,
        ⟨["prefix", "b"], .fileE p c⟩] ∧
    (restorePrefix ⟨[⟨["prefix"], .dirE q⟩, ⟨["prefix", "a"], .fileE p c⟩,
        ⟨["prefix", "b"], .fileE p c⟩], false⟩ "dest" .nil).ok = true ∧
    (restorePrefix ⟨[⟨["prefix"], .dirE q⟩, ⟨["prefix", "a"], .fileE p c⟩,
        ⟨["prefix", "b"], .fileE p c⟩], false⟩ "dest" .nil).parent.lookup "dest" =
      some (.dir q (.cons "a" (.file p c) (.cons "b" (.file p c) .nil))) := by
  refine ⟨?_, ?_, ?_, ?_⟩
  · intro fs fuel ino path v perms content hF
    simp [appendDirRecursive, hF]
  · simp [snapshotPrefix, snapshotFuel, appendDirRecursive, appendChildren, findNode]
  · rfl
  · rfl

/-- Witness for C10: a file inode whose number is already in the visited set
is still archived as a full copy, with the visited set unchanged. -/
theorem c10_witness :
    appendDirRecursive [(3, .file 6 [7] true)] 1 3 ["x"] [3] =
      .ok ([⟨["x"], .fileE 6 [7]⟩], [3]) :=
  (c10_hardlinks_copied 0 0 []).1 [(3, .file 6 [7] true)] 0 3 ["x"] [3] 6 [7]
    (by simp [findNode])

/-- C2 counterexample: a path that vanished mid-walk (child inode 2 of
`fsVanish` cannot be stat'ed) is NOT skipped — `fs::symlink_metadata`'s error
is propagated with `?`, aborting the whole snapshot instead of returning an
archive with the remaining readable entries. -/
theorem c2_counterexample : snapshotPrefix fsVanish 1 = .error .statFail := by
  simp [snapshotPrefix, snapshotFuel, appendDirRecursive, appendChildren,
    findNode, fsVanish]

/-- C2 (amended): entries whose content cannot be opened are skipped softly —
an unreadable file contributes no entry and aborts nothing, an unreadable
directory contributes its directory entry but no children and aborts
nothing, and a tree with one unreadable file still snapshots successfully
with all other readable entries; only a stat failure (vanished path) aborts
the snapshot. -/
theorem c2_soft_skip :
    (∀ (fs : FS) (fuel ino : Nat) (path : List String) (v : List Nat)
        (perms : Nat) (content : List Nat),
      findNode fs ino = some (.file perms content false) →
      appendDirRecursive fs (fuel + 1) ino path v = .ok ([], v)) ∧
    (∀ (fs : FS) (fuel ino : Nat) (path : List String) (v : List Nat)
        (perms : Nat) (children : List (String × Nat)),
      findNode fs ino = some (.dir perms children false) → v.contains ino = false →
      appendDirRecursive fs (fuel + 1) ino path v = .ok ([⟨path, .dirE perms⟩], ino :: v)) ∧
    snapshotPrefix fsSoft 1 =
      .ok [⟨["prefix"], .dirE 7⟩, ⟨["prefix", "good"], .fileE 6 [3]⟩] := by
  refine ⟨?_, ?_, ?_⟩
  · intro fs fuel ino path v perms content hF
    simp [appendDirRecursive, hF]
  · intro fs fuel ino path v perms children hF hv
    have hv2 : ino ∉ v := by simpa using hv
    simp [appendDirRecursive, hF, hv, hv2]
  · simp [snapshotPrefix, snapshotFuel, appendDirRecursive, appendChildren,
      findNode, fsSoft]

/-- Witness for the amended C2: an unreadable file is skipped with no error,
and an unreadable directory still contributes its own entry. -/
theorem c2_witness :
    appendDirRecursive [(4, .file 6 [1] false)] 1 4 ["p"] [] = .ok ([], []) ∧
      appendDirRecursive [(4, .dir 6 [("x", 9)] false)] 1 4 ["p"] [] =
        .ok ([⟨["p"], .dirE 6⟩], [4]) :=
  ⟨c2_soft_skip.1 [(4, .file 6 [1] false)] 0 4 ["p"] [] 6 [1] (by simp [findNode]),
    c2_soft_skip.2.1 [(4, .dir 6 [("x", 9)] false)] 0 4 ["p"] [] 6 [("x", 9)]
      (by simp [findNode]) rfl⟩

/-- C3 counterexample: when the destination directory is itself named
`"prefix"`, the unpack writes directly into the destination (the code's
`extracted != prefix_dir` test makes the rename a no-op), so a decode
failure mid-stream leaves the destination half-restored — it already holds
the partially decoded content, not a fresh empty directory. -/
theorem c3_counterexample :
    (restorePrefix ⟨[⟨["prefix"], .dirE 7⟩, ⟨["prefix", "a"], .fileE 6 [1]⟩], true⟩
        "prefix" .nil).ok = false ∧
    (restorePrefix ⟨[⟨["prefix"], .dirE 7⟩, ⟨["prefix", "a"], .fileE 6 [1]⟩], true⟩
        "prefix" .nil).parent.lookup "prefix" =
      some (.dir 7 (.cons "a" (.file 6 [1]) .nil)) ∧
    some (PTree.dir 7 (.cons "a" (.file 6 [1]) .nil)) ≠
      some (PTree.dir mkdirPerms .nil) := by
  refine ⟨rfl, rfl, ?_⟩
  simp [mkdirPerms]

/-- C3 (amended): for archives whose every entry is rooted at the fixed name
`"prefix"` (as `snapshot_prefix` produces) and a destination whose basename
is not `"prefix"`, entries are unpacked into the destination's parent; a
decode failure mid-stream reports an error and leaves the destination as the
freshly created empty directory — never half-restored — while the partially
decoded content sits under the stray sibling name `"prefix"`. -/
theorem c3_staging (arch : Archive) (destName : String) (parent : Forest)
    (hroot : ∀ e ∈ arch.entries, ∃ r, e.path = "prefix" :: r)
    (hdest : destName ≠ "prefix") (hcor : arch.corrupt = true) :
    (restorePrefix arch destName parent).ok = false ∧
    (restorePrefix arch destName parent).parent.lookup destName =
      some (.dir mkdirPerms .nil) ∧
    (arch.entries ≠ [] →
      ((restorePrefix arch destName parent).parent.lookup "prefix").isSome = true) := by
  have hres : restorePrefix arch destName parent =
      ⟨unpack ((parent.erase destName).append (.cons destName (.dir mkdirPerms .nil) .nil))
        arch.entries, false⟩ := by
    simp [restorePrefix, hcor]
  have hother : ∀ e ∈ arch.entries, ∀ nn r, e.path = nn :: r → nn ≠ destName := by
    intro e he nn r hp
    obtain ⟨r2, hr2⟩ := hroot e he
    rw [hr2] at hp
    have : nn = "prefix" := (List.cons.injEq _ _ _ _ ▸ hp.symm).1
    rw [this]
    exact Ne.symm hdest
  refine ⟨by rw [hres], ?_, ?_⟩
  · rw [hres]
    show (unpack _ arch.entries).lookup destName = _
    rw [unpack_lookup_other arch.entries _ destName hother, Forest.lookup_append,
      Forest.lookup_erase_self]
    simp [Forest.lookup]
  · intro hne
    rw [hres]
    exact unpack_creates_root arch.entries _ hroot hne

/-- Witness for the amended C3: a one-entry corrupt archive restored beside
a destination named "d" fails, leaves "d" empty, and stages the entry under
the sibling "prefix". -/
theorem c3_witness :
    (restorePrefix ⟨[⟨["prefix"], .dirE 7⟩], true⟩ "d" .nil).ok = false ∧
    (restorePrefix ⟨[⟨["prefix"], .dirE 7⟩], true⟩ "d" .nil).parent.lookup "d" =
      some (.dir mkdirPerms .nil) ∧
    ([(⟨["prefix"], .dirE 7⟩ : Entry)] ≠ [] →
      ((restorePrefix ⟨[⟨["prefix"], .dirE 7⟩], true⟩ "d" .nil).parent.lookup
        "prefix").isSome = true) := by
  have h := c3_staging ⟨[⟨["prefix"], .dirE 7⟩], true⟩ "d" .nil
    (by intro e he; simp at he; rw [he]; exact ⟨[], rfl⟩)
    (by decide) rfl
  exact ⟨h.1, h.2.1, h.2.2⟩

/-- C8 counterexample: a valid archive with no entries under `"prefix"`
whose foreign root happens to equal the destination's basename ("d") is
unpacked straight into the destination — `restore_prefix` returns `Ok` but
the destination is NOT left as an empty directory. -/
theorem c8_counterexample :
    (restorePrefix ⟨[⟨["d", "x"], .fileE 6 []⟩], false⟩ "d" .nil).ok = true ∧
    (restorePrefix ⟨[⟨["d", "x"], .fileE 6 []⟩], false⟩ "d" .nil).parent.lookup "d" =
      some (.dir mkdirPerms (.cons "x" (.file 6 []) .nil)) ∧
    some (PTree.dir mkdirPerms (.cons "x" (.file 6 []) .nil)) ≠
      some (PTree.dir mkdirPerms .nil) := by
  refine ⟨rfl, rfl, ?_⟩
  simp

/-- C8 (amended): for a valid archive none of whose entry paths are rooted
at `"prefix"` or at the destination's basename, and a parent holding no
pre-existing `"prefix"` entry, `restore_prefix` returns `Ok` and the
destination is left existing as an empty directory (the final rename is
skipped because no extracted `"prefix"` directory exists). -/
theorem c8_foreign_root (arch : Archive) (destName : String) (parent : Forest)
    (hcor : arch.corrupt = false)
    (hroot : ∀ e ∈ arch.entries, ∀ nn r, e.path = nn :: r →
      nn ≠ "prefix" ∧ nn ≠ destName)
    (hpar : parent.lookup "prefix" = none) :
    (restorePrefix arch destName parent).ok = true ∧
    (restorePrefix arch destName parent).parent.lookup destName =
      some (.dir mkdirPerms .nil) := by
  have hd : ∀ e ∈ arch.entries, ∀ nn r, e.path = nn :: r → nn ≠ destName :=
    fun e he nn r hp => (hroot e he nn r hp).2
  have hp2 : ∀ e ∈ arch.entries, ∀ nn r, e.path = nn :: r → nn ≠ "prefix" :=
    fun e he nn r hp => (hroot e he nn r hp).1
  have hlookd : (unpack ((parent.erase destName).append
      (.cons destName (.dir mkdirPerms .nil) .nil)) arch.entries).lookup destName =
      some (.dir mkdirPerms .nil) := by
    rw [unpack_lookup_other arch.entries _ destName hd, Forest.lookup_append,
      Forest.lookup_erase_self]
    simp [Forest.lookup]
  by_cases hdp : destName = "prefix"
  · subst hdp
    have hlookp : (unpack ((parent.erase "prefix").append
        (.cons "prefix" (.dir mkdirPerms .nil) .nil)) arch.entries).lookup "prefix" =
        some (.dir mkdirPerms .nil) := hlookd
    constructor
    · simp [restorePrefix, hcor, hlookp]
    · simp [restorePrefix, hcor, hlookp]
  · have hlookp : (unpack ((parent.erase destName).append
        (.cons destName (.dir mkdirPerms .nil) .nil)) arch.entries).lookup "prefix" =
        none := by
      rw [unpack_lookup_other arch.entries _ "prefix" hp2, Forest.lookup_append,
        Forest.lookup_erase_ne parent destName "prefix" (Ne.symm hdp), hpar]
      simp [Forest.lookup, hdp]
    constructor
    · simp [restorePrefix, hcor, hlookp]
    · simp [restorePrefix, hcor, hlookp, hlookd]

/-- Witness for the amended C8: restoring a valid archive rooted at "other"
beside a destination named "d" succeeds and leaves "d" as an empty
directory. -/
theorem c8_witness :
    (restorePrefix ⟨[⟨["other", "y"], .symE "t"⟩], false⟩ "d" .nil).ok = true ∧
    (restorePrefix ⟨[⟨["other", "y"], .symE "t"⟩], false⟩ "d" .nil).parent.lookup "d" =
      some (.dir mkdirPerms .nil) :=
  c8_foreign_root ⟨[⟨["other", "y"], .symE "t"⟩], false⟩ "d" .nil rfl
    (by
      intro e he nn r hp
      simp at he
      rw [he] at hp
      have : nn = "other" := (List.cons.injEq _ _ _ _ ▸ hp.symm).1
      rw [this]
      exact ⟨by decide, by decide⟩)
    rfl

/-- C1 counterexample: the round trip is not unconditional.  Restoring the
snapshot of the one-file tree `fsRoundTrip` into a destination "d" whose
parent already holds a stray directory named `"prefix"` (e.g. left by an
earlier failed restore) merges the stray's contents into the extracted tree:
the restore succeeds but the destination holds an extra file "junk" that was
never in the source, so the restored tree is not equivalent to the source. -/
theorem c1_counterexample :
    snapshotPrefix fsRoundTrip 1 =
      .ok [⟨["prefix"], .dirE 7⟩, ⟨["prefix", "a"], .fileE 6 [97]⟩] ∧
    readTree fsRoundTrip (snapshotFuel fsRoundTrip) 1 =
      some (.dir 7 (.cons "a" (.file 6 [97]) .nil), [1]) ∧
    (restorePrefix ⟨[⟨["prefix"], .dirE 7⟩, ⟨["prefix", "a"], .fileE 6 [97]⟩], false⟩ "d"
        (.cons "prefix" (.dir 7 (.cons "junk" (.file 6 [0]) .nil)) .nil)).ok = true ∧
    (restorePrefix ⟨[⟨["prefix"], .dirE 7⟩, ⟨["prefix", "a"], .fileE 6 [97]⟩], false⟩ "d"
        (.cons "prefix" (.dir 7 (.cons "junk" (.file 6 [0]) .nil)) .nil)).parent.lookup "d" =
      some (.dir 7 (.cons "junk" (.file 6 [0]) (.cons "a" (.file 6 [97]) .nil))) ∧
    some (PTree.dir 7 (.cons "junk" (.file 6 [0]) (.cons "a" (.file 6 [97]) .nil))) ≠
      some (PTree.dir 7 (.cons "a" (.file 6 [97]) .nil)) := by
  refine ⟨?_, ?_, rfl, rfl, ?_⟩
  · simp [snapshotPrefix, snapshotFuel, appendDirRecursive, appendChildren,
      findNode, fsRoundTrip]
  · simp [readTree, readChildren, findNode, fsRoundTrip, snapshotFuel]
  · simp

/-- C1 (amended): Round trip.  For any readable, cycle-free directory tree
(readTree succeeds; its directory inodes are pairwise distinct; child names
inside each directory are distinct), provided the destination's parent holds
no pre-existing `"prefix"` entry, `snapshot_prefix` emits exactly the tree's
entry stream and restoring that archive yields the destination equal to the
source tree: byte-identical file contents, identical symlink targets, and
identical entry kinds and permissions. -/
theorem c1_round_trip (fs : FS) (root : Nat) (t : PTree) (inos : List Nat)
    (destName : String) (parent : Forest)
    (hread : readTree fs (snapshotFuel fs) root = some (t, inos))
    (hnd : inos.Nodup) (hnames : namesOk t = true)
    (hpar : parent.lookup "prefix" = none) :
    snapshotPrefix fs root = .ok (treeEntries t ["prefix"]) ∧
    (restorePrefix ⟨treeEntries t ["prefix"], false⟩ destName parent).ok = true ∧
    (restorePrefix ⟨treeEntries t ["prefix"], false⟩ destName parent).parent.lookup
      destName = some t := by
  have hw := (walk_readTree fs (snapshotFuel fs)).1 root t inos ["prefix"] []
    hread hnd (fun i _ => rfl)
  have hsnap : snapshotPrefix fs root = .ok (treeEntries t ["prefix"]) := by
    simp [snapshotPrefix, hw]
  refine ⟨hsnap, ?_⟩
  by_cases hdp : destName = "prefix"
  · subst hdp
    have hp1 : ((parent.erase "prefix").append
        (.cons "prefix" (.dir mkdirPerms .nil) .nil)).lookup "prefix" =
        some (.dir mkdirPerms .nil) := by
      rw [Forest.lookup_append, Forest.lookup_erase_self]
      simp [Forest.lookup]
    have hup := unpack_treeEntries t _ "prefix" (Or.inr ⟨mkdirPerms, hp1⟩) hnames
    constructor
    · simp [restorePrefix, hup, Forest.lookup_updateAt_self]
    · simp [restorePrefix, hup, Forest.lookup_updateAt_self]
  · have hp1 : ((parent.erase destName).append
        (.cons destName (.dir mkdirPerms .nil) .nil)).lookup "prefix" = none := by
      rw [Forest.lookup_append,
        Forest.lookup_erase_ne parent destName "prefix" (Ne.symm hdp), hpar]
      simp [Forest.lookup, hdp]
    have hup := unpack_treeEntries t _ "prefix" (Or.inl hp1) hnames
    have hfin : ((((( (parent.erase destName).append
        (.cons destName (.dir mkdirPerms .nil) .nil)).updateAt "prefix"
          (fun _ => t)).erase destName).erase "prefix").append
            (.cons destName t .nil)).lookup destName = some t := by
      rw [Forest.lookup_append, Forest.lookup_erase_ne _ "prefix" destName hdp,
        Forest.lookup_erase_self]
      simp [Forest.lookup]
    constructor
    · simp [restorePrefix, hup, Forest.lookup_updateAt_self, hdp]
    · simp only [restorePrefix, hup, Forest.lookup_updateAt_self, hdp]
      simpa using hfin

/-- Witness for the amended C1: the one-file tree of `fsRoundTrip` survives
a snapshot/restore round trip into an empty parent. -/
theorem c1_witness :
    snapshotPrefix fsRoundTrip 1 =
      .ok (treeEntries (.dir 7 (.cons "a" (.file 6 [97]) .nil)) ["prefix"]) ∧
    (restorePrefix ⟨treeEntries (.dir 7 (.cons "a" (.file 6 [97]) .nil)) ["prefix"],
        false⟩ "d" .nil).ok = true ∧
    (restorePrefix ⟨treeEntries (.dir 7 (.cons "a" (.file 6 [97]) .nil)) ["prefix"],
        false⟩ "d" .nil).parent.lookup "d" =
      some (.dir 7 (.cons "a" (.file 6 [97]) .nil)) :=
  c1_round_trip fsRoundTrip 1 (.dir 7 (.cons "a" (.file 6 [97]) .nil)) [1] "d" .nil
    (by simp [readTree, readChildren, findNode, fsRoundTrip, snapshotFuel])
    (by simp) rfl rfl
